import Mathlib

/-!
Shallow embedding of `src/queries/reviewed-preprints.ts` and
`src/cli/top-up-reviewed-preprints.ts` (effect-ts pipelines), together with
proofs about the merge, page-planning, invalidation and backfill logic.

Modelling conventions:
* A `Date` value in memory is represented by its `getTime` integer.
* `Effect` failure is `Except String`; the file system is an association list
  from path to file content, threaded explicitly through the stateful
  pipelines.
* The JSON serialisation / schema-validation machinery (`JSON.parse`,
  `Schema.decodeUnknown`) is an external collaborator; file content is
  modelled by the outcome taxonomy the source pipeline itself distinguishes:
  content that fails `JSON.parse`, content that parses but fails the
  collection codec, a well-formed summary collection, and a single detail
  record object.
-/

/-- A reviewed-preprint summary record (`reviewedPreprintItemCodec`):
`id`, `title`, `published`, `statusDate` (as `getTime` integers), optional
`hash`. -/
structure RP where
  id : String
  title : String
  published : Int
  statusDate : Int
  hash : Option String
deriving DecidableEq, Repr

/-- First-occurrence scan behind `Array.dedupeWith((a, b) => a.id === b.id)`:
keep an element iff no element with the same `id` has been kept before. -/
def dedupeByIdAux (seen : List String) : List RP → List RP
  | [] => []
  | x :: xs =>
      if x.id ∈ seen then dedupeByIdAux seen xs
      else x :: dedupeByIdAux (x.id :: seen) xs

/-- `Array.dedupeWith((a, b) => a.id === b.id)`: keep the first occurrence of
each `id`. -/
def dedupeById (l : List RP) : List RP := dedupeByIdAux [] l

/-- Insert `x` into a list sorted by `statusDate` descending, after every
element with a strictly larger `statusDate` and before every element with a
smaller-or-equal one (so an element coming from earlier in the input stays
before later equal-key elements: stability). -/
def insertDesc (x : RP) : List RP → List RP
  | [] => [x]
  | y :: ys => if x.statusDate < y.statusDate then y :: insertDesc x ys else x :: y :: ys

/-- `Array.sort(Order.reverse(Order.mapInput(Order.number, statusDate.getTime)))`:
a stable sort by `statusDate` descending.  JavaScript `Array.prototype.sort`
is required to be stable, and a stable sort for a fixed comparator is
extensionally unique, so stable insertion sort is a faithful embedding. -/
def sortByStatusDateDesc : List RP → List RP
  | [] => []
  | x :: xs => insertDesc x (sortByStatusDateDesc xs)

/-- The pure list-level content of `reviewedPreprintsTopUpCombine`:
`Array.appendAll(oldList)(newList)` is effect's data-last `appendAll`, which
appends `oldList` AFTER `newList`, i.e. produces `newList ++ oldList`
(delta followed by canonical); then dedupe by id keeping the first
occurrence; then stable-sort by `statusDate` descending. -/
def reviewedPreprintsCombineList (oldList newList : List RP) : List RP :=
  sortByStatusDateDesc (dedupeById (newList ++ oldList))

/-- The set of ids already seen after scanning `l` starting from `seen`. -/
def seenAfter (seen : List String) : List RP → List String
  | [] => seen
  | x :: xs => if x.id ∈ seen then seenAfter seen xs else seenAfter (x.id :: seen) xs

/-- Sorted by `statusDate` descending (every later element has a
smaller-or-equal `statusDate`). -/
def SortedByStatusDateDesc (l : List RP) : Prop :=
  l.Pairwise (fun a b => b.statusDate ≤ a.statusDate)

/-! ## File paths (constants from the source) -/

def getCachedFilePath : String := ".cached/reviewed-preprints"

def getCachedListFile : String := getCachedFilePath ++ ".json"

def getCachedListFileNew : String := getCachedFilePath ++ "-new.json"

def getCachedFile (msid : String) : String := getCachedFilePath ++ "/" ++ msid ++ ".json"

/-! ## File-system state and the JSON boundary -/

/-- The content of one file, classified by the outcomes the source pipeline
distinguishes: a serialized summary collection, a serialized detail record,
text that fails `JSON.parse` (e.g. a truncated file), and text that parses
as JSON but fails the summary-collection codec (e.g. the file text `0`). -/
inductive FileVal
  | rps (l : List RP)
  | detail (d : RP)
  | badJson
  | badSchemaJson
deriving DecidableEq, Repr

/-- A parsed JSON document, at the granularity the codecs distinguish. -/
inductive JsonDoc
  | rps (l : List RP)
  | detail (d : RP)
  | other
deriving DecidableEq, Repr

/-- The file system: an association list from path to content; the first
entry for a path is its current content. -/
abbrev FS := List (String × FileVal)

def FS.lookup (fs : FS) (path : String) : Option FileVal :=
  (fs.find? (fun e => e.1 = path)).map Prod.snd

def FS.write (fs : FS) (path : String) (v : FileVal) : FS :=
  (path, v) :: fs

/-- `fs.remove(path, force: true)`: delete every entry at `path`; a missing
target is a no-op, not an error. -/
def FS.removeFile (fs : FS) (path : String) : FS :=
  fs.filter (fun e => e.1 ≠ path)

/-- `fs.readFileString`: fails with NotFound on a missing file. -/
def readFileString (fs : FS) (path : String) : Except String FileVal :=
  match fs.lookup path with
  | some v => .ok v
  | none => .error "NotFound"

/-- `JSON.parse` wrapped in `Effect.try`: fails exactly on unparseable text. -/
def jsonParse : FileVal → Except String JsonDoc
  | .rps l => .ok (.rps l)
  | .detail d => .ok (.detail d)
  | .badJson => .error "Invalid JSON"
  | .badSchemaJson => .ok .other

/-- `Schema.decodeUnknown(reviewedPreprintsCodec)`: succeeds exactly on an
array of summary records. -/
def decodeReviewedPreprints : JsonDoc → Except String (List RP)
  | .rps l => .ok l
  | .detail _ => .error "schema decode failed"
  | .other => .error "schema decode failed"

/-- `getCachedReviewedPreprints`: read the file, `JSON.parse` it,
`catchAll` both failures into the JS value `[]` (which is the empty JSON
array, `JsonDoc.rps []`), then decode with the collection codec.  Note that
the decode step sits AFTER the `catchAll`. -/
def getCachedReviewedPreprints (fs : FS) (file : String) : Except String (List RP) :=
  decodeReviewedPreprints
    (match (readFileString fs file).bind jsonParse with
     | .ok doc => doc
     | .error _ => .rps [])

/-! ## Effect combinators -/

/-- `Effect.all` on a list of effects: collect all results, failing with the
first failure. -/
def effectAll : List (Except String α) → Except String (List α)
  | [] => .ok []
  | e :: es => e.bind (fun x => (effectAll es).map (fun xs => x :: xs))

/-- JavaScript `Array.prototype.slice(s, e)` for `0 ≤ s ≤ e`. -/
def jsSlice (l : List α) (s e : Nat) : List α := (l.drop s).take (e - s)

/-! ## Page planning and top-up fetch -/

/-- The page list computed inside `getReviewedPreprintsTopUp`:
`page = offset > 0 ? floor((offset + limit) / limit) : 1`, with `page + 1`
added when `page > 0 && offset % limit > 0`. -/
def topUpPages (limit offset : Nat) : List Nat :=
  let page := if offset > 0 then (offset + limit) / limit else 1
  page :: (if page > 0 ∧ offset % limit > 0 then [page + 1] else [])

/-- `getReviewedPreprintsTopUp` (queries module): fetch every planned page
(`Effect.all`, fail-fast), flatten in page order, and slice
`[offset % limit, offset % limit + limit)`.  The per-page HTTP fetch,
decode and hashing are the external collaborator `fetchPage` (which already
closes over `limit` for the `per-page` parameter). -/
def getReviewedPreprintsTopUp (fetchPage : Nat → Except String (List RP))
    (limit : Nat) (offset : Nat) : Except String (List RP) :=
  let page := if offset > 0 then (offset + limit) / limit else 1
  let pages := page :: (if page > 0 ∧ offset % limit > 0 then [page + 1] else [])
  (effectAll (pages.map fetchPage)).map
    (fun ps => jsSlice ps.flatten (offset % limit) (offset % limit + limit))

namespace Cli

/-- The near-duplicate copy of `getReviewedPreprintsTopUp` appended in
`src/cli/top-up-reviewed-preprints.ts`: identical page arithmetic, page
list, flatten and slice. -/
def getReviewedPreprintsTopUp (fetchPage : Nat → Except String (List RP))
    (limit : Nat) (offset : Nat) : Except String (List RP) :=
  let page := if offset > 0 then (offset + limit) / limit else 1
  let pages := page :: (if page > 0 ∧ offset % limit > 0 then [page + 1] else [])
  (effectAll (pages.map fetchPage)).map
    (fun ps => jsSlice ps.flatten (offset % limit) (offset % limit + limit))

end Cli

/-! ## Stateful pipeline stages -/

/-- `reviewedPreprintsTopUpWrite`: read the canonical collection, top up with
`offset = cached.length`, serialize, and only then (`Effect.tap`) write the
delta file.  Returns the stage result and the file system after the stage. -/
def reviewedPreprintsTopUpWrite (fetchPage : Nat → Except String (List RP))
    (limit : Nat) (fs : FS) : Except String (List RP) × FS :=
  match getCachedReviewedPreprints fs getCachedListFile with
  | .error e => (.error e, fs)
  | .ok cached =>
      match getReviewedPreprintsTopUp fetchPage limit cached.length with
      | .error e => (.error e, fs)
      | .ok rps => (.ok rps, fs.write getCachedListFileNew (.rps rps))

/-- `reviewedPreprintsTopUpCombine`: read canonical (`oldList`) and delta
(`newList`), combine as `reviewedPreprintsCombineList`, serialize and write
the canonical file. -/
def reviewedPreprintsTopUpCombine (fs : FS) : Except String (List RP) × FS :=
  match getCachedReviewedPreprints fs getCachedListFile,
        getCachedReviewedPreprints fs getCachedListFileNew with
  | .error e, _ => (.error e, fs)
  | _, .error e => (.error e, fs)
  | .ok oldList, .ok newList =>
      let combined := reviewedPreprintsCombineList oldList newList
      (.ok combined, fs.write getCachedListFile (.rps combined))

/-- `reviewedPreprintsTopUpInvalidate`: read the delta file, map each record
to its detail path, and remove each with force semantics. -/
def reviewedPreprintsTopUpInvalidate (fs : FS) : Except String Unit × FS :=
  match getCachedReviewedPreprints fs getCachedListFileNew with
  | .error e => (.error e, fs)
  | .ok delta =>
      (.ok (), (delta.map (fun rp => getCachedFile rp.id)).foldl FS.removeFile fs)

/-- `missingIndividualReviewedPreprints`: read the canonical collection, test
existence of each id's detail file, and keep the `(msid, path)` pairs whose
file does not exist. -/
def missingIndividualReviewedPreprints (fs : FS) :
    Except String (List (String × String)) :=
  (getCachedReviewedPreprints fs getCachedListFile).map (fun cached =>
    ((cached.map (fun rp => rp.id)).map
        (fun msid => (msid, getCachedFile msid, (fs.lookup (getCachedFile msid)).isSome)))
      |>.filter (fun t => !t.2.2) |>.map (fun t => (t.1, t.2.1)))

/-- `retrieveIndividualReviewedPreprints`: fetch every listed detail record
(`Effect.all`, fail-fast over the list order), and only after all fetches
succeed (`Effect.tap`) write each result to its path. -/
def retrieveIndividualReviewedPreprints (fetch : String → Except String RP)
    (items : List (String × String)) (fs : FS) :
    Except String (List (String × String × RP)) × FS :=
  match effectAll (items.map (fun it => (fetch it.1).map (fun r => (it.1, it.2, r)))) with
  | .error e => (.error e, fs)
  | .ok results =>
      (.ok results, results.foldl (fun acc r => acc.write r.2.1 (.detail r.2.2)) fs)

/-- `retrieveMissingIndividualReviewedPreprints`: compute the missing detail
files, then retrieve them. -/
def retrieveMissingIndividualReviewedPreprints (fetch : String → Except String RP)
    (fs : FS) : Except String (List (String × String × RP)) × FS :=
  match missingIndividualReviewedPreprints fs with
  | .error e => (.error e, fs)
  | .ok items => retrieveIndividualReviewedPreprints fetch items fs

/-! ## Concrete records, file systems and collaborators used by witnesses -/

def rpOldA : RP := ⟨"a", "old title", 0, 1, none⟩

def rpNewA : RP := ⟨"a", "new title", 0, 5, none⟩

def rpW1 : RP := ⟨"w1", "t1", 0, 40, none⟩

def rpW2 : RP := ⟨"w2", "t2", 0, 30, none⟩

def rpW3 : RP := ⟨"w3", "t3", 0, 20, none⟩

def rpW4 : RP := ⟨"w4", "t4", 0, 10, none⟩

def fetchC2 : Nat → Except String (List RP) := fun p =>
  if p = 2 then .ok [rpW1, rpW2] else if p = 3 then .ok [rpW3, rpW4] else .ok []

def cexFetch : String → Except String RP := fun s =>
  if s = "a" then .error "boom"
  else if s = "b" then .error "boom-b"
  else .error "boom-c"

def fsC6 : FS :=
  [(getCachedListFile, .rps [rpOldA]), (getCachedListFileNew, .rps [rpNewA])]

def fsC8 : FS :=
  [(getCachedListFileNew, .rps [rpNewA]), (getCachedFile "a", .detail rpNewA)]

def fsC9 : FS := [(getCachedListFile, .rps [rpNewA])]

def fetchC9 : String → Except String RP := fun _ => .ok rpNewA

/-! ## Lemmas about first-occurrence dedupe -/

theorem dedupeByIdAux_sublist (seen : List String) (l : List RP) :
    List.Sublist (dedupeByIdAux seen l) l := by
  induction l generalizing seen with
  | nil => simp [dedupeByIdAux]
  | cons x xs ih =>
      by_cases h : x.id ∈ seen
      · rw [dedupeByIdAux, if_pos h]
        exact (ih seen).trans (List.sublist_cons_self x xs)
      · rw [dedupeByIdAux, if_neg h]
        exact (ih (x.id :: seen)).cons₂ x

theorem mem_dedupeByIdAux_not_seen {seen : List String} {l : List RP} {x : RP}
    (hx : x ∈ dedupeByIdAux seen l) : x.id ∉ seen := by
  induction l generalizing seen with
  | nil => simp [dedupeByIdAux] at hx
  | cons y ys ih =>
      by_cases h : y.id ∈ seen
      · rw [dedupeByIdAux, if_pos h] at hx
        exact ih hx
      · rw [dedupeByIdAux, if_neg h] at hx
        rcases List.mem_cons.mp hx with rfl | hx2
        · exact h
        · exact fun hs => ih hx2 (List.mem_cons_of_mem _ hs)

theorem dedupeByIdAux_pairwise (seen : List String) (l : List RP) :
    (dedupeByIdAux seen l).Pairwise (fun a b => a.id ≠ b.id) := by
  induction l generalizing seen with
  | nil => simp [dedupeByIdAux]
  | cons x xs ih =>
      by_cases h : x.id ∈ seen
      · rw [dedupeByIdAux, if_pos h]
        exact ih seen
      · rw [dedupeByIdAux, if_neg h]
        refine List.Pairwise.cons ?_ (ih _)
        intro b hb hab
        exact mem_dedupeByIdAux_not_seen hb (hab ▸ List.mem_cons_self _ _)

theorem dedupeByIdAux_congr {seen seen2 : List String} (l : List RP)
    (h : ∀ s, s ∈ seen ↔ s ∈ seen2) :
    dedupeByIdAux seen l = dedupeByIdAux seen2 l := by
  induction l generalizing seen seen2 with
  | nil => rfl
  | cons x xs ih =>
      by_cases hx : x.id ∈ seen
      · rw [dedupeByIdAux, if_pos hx, dedupeByIdAux, if_pos ((h _).mp hx)]
        exact ih h
      · rw [dedupeByIdAux, if_neg hx, dedupeByIdAux, if_neg (fun hh => hx ((h _).mpr hh))]
        congr 1
        refine ih (fun s => ?_)
        simp only [List.mem_cons, h s]

theorem mem_seenAfter {seen : List String} {l : List RP} {s : String} :
    s ∈ seenAfter seen l ↔ s ∈ seen ∨ s ∈ l.map RP.id := by
  induction l generalizing seen with
  | nil => simp [seenAfter]
  | cons x xs ih =>
      by_cases h : x.id ∈ seen
      · rw [seenAfter, if_pos h, ih]
        simp only [List.map_cons, List.mem_cons]
        constructor
        · rintro (hs | hs)
          · exact Or.inl hs
          · exact Or.inr (Or.inr hs)
        · rintro (hs | rfl | hs)
          · exact Or.inl hs
          · exact Or.inl h
          · exact Or.inr hs
      · rw [seenAfter, if_neg h, ih]
        simp only [List.mem_cons, List.map_cons]
        tauto

theorem dedupeByIdAux_append (seen : List String) (a b : List RP) :
    dedupeByIdAux seen (a ++ b) =
      dedupeByIdAux seen a ++ dedupeByIdAux (seenAfter seen a) b := by
  induction a generalizing seen with
  | nil => rfl
  | cons x xs ih =>
      by_cases h : x.id ∈ seen
      · rw [List.cons_append, dedupeByIdAux, if_pos h, dedupeByIdAux, if_pos h,
          seenAfter, if_pos h, ih]
      · rw [List.cons_append, dedupeByIdAux, if_neg h, dedupeByIdAux, if_neg h,
          seenAfter, if_neg h, ih, List.cons_append]

theorem dedupeByIdAux_irrel {s : String} {l : List RP} (seen : List String)
    (h : ∀ y ∈ l, y.id ≠ s) :
    dedupeByIdAux (s :: seen) l = dedupeByIdAux seen l := by
  induction l generalizing seen with
  | nil => rfl
  | cons x xs ih =>
      have hxs : x.id ≠ s := h x (List.mem_cons_self _ _)
      have hxs2 : ∀ y ∈ xs, y.id ≠ s := fun y hy => h y (List.mem_cons_of_mem _ hy)
      by_cases hx : x.id ∈ seen
      · rw [dedupeByIdAux, if_pos (List.mem_cons_of_mem _ hx), dedupeByIdAux, if_pos hx]
        exact ih seen hxs2
      · have hx2 : x.id ∉ s :: seen := by
          simp only [List.mem_cons]
          rintro (hh | hh)
          · exact hxs hh
          · exact hx hh
        rw [dedupeByIdAux, if_neg hx2, dedupeByIdAux, if_neg hx]
        congr 1
        calc dedupeByIdAux (x.id :: s :: seen) xs
            = dedupeByIdAux (s :: x.id :: seen) xs := by
              refine dedupeByIdAux_congr xs (fun t => ?_)
              simp only [List.mem_cons]
              tauto
          _ = dedupeByIdAux (x.id :: seen) xs := ih (x.id :: seen) hxs2

theorem dedupeByIdAux_eq_filter {seen : List String} {l : List RP}
    (h : l.Pairwise (fun a b => a.id ≠ b.id)) :
    dedupeByIdAux seen l = l.filter (fun y => y.id ∉ seen) := by
  induction l generalizing seen with
  | nil => rfl
  | cons x xs ih =>
      obtain ⟨hx, hxs⟩ := List.pairwise_cons.mp h
      by_cases hm : x.id ∈ seen
      · rw [dedupeByIdAux, if_pos hm, ih hxs, List.filter_cons]
        simp [hm]
      · rw [dedupeByIdAux, if_neg hm,
          dedupeByIdAux_irrel seen (fun y hy => (hx y hy).symm), ih hxs, List.filter_cons]
        simp [hm]

theorem filter_id_dedupeByIdAux (seen : List String) (l : List RP) (i : String) :
    (dedupeByIdAux seen l).filter (fun y => y.id = i) =
      if i ∈ seen then [] else (l.find? (fun y => y.id = i)).toList := by
  induction l generalizing seen with
  | nil => simp [dedupeByIdAux]
  | cons x xs ih =>
      by_cases hm : x.id ∈ seen
      · rw [dedupeByIdAux, if_pos hm, ih]
        by_cases hi : i ∈ seen
        · simp [hi]
        · have hxi : x.id ≠ i := fun hh => hi (hh ▸ hm)
          simp [hi, List.find?_cons, hxi]
      · rw [dedupeByIdAux, if_neg hm, List.filter_cons, ih]
        by_cases hxi : x.id = i
        · have hi : i ∉ seen := hxi ▸ hm
          simp [hxi, hi, List.find?_cons, List.mem_cons]
        · have hiff : (i ∈ x.id :: seen) ↔ i ∈ seen := by
            simp only [List.mem_cons]
            constructor
            · rintro (hh | hh)
              · exact absurd hh.symm hxi
              · exact hh
            · exact Or.inr
          simp [hxi, List.find?_cons, hiff]

/-! ## Lemmas about the stable descending sort -/

theorem insertDesc_perm (x : RP) (l : List RP) : (insertDesc x l).Perm (x :: l) := by
  induction l with
  | nil => simp [insertDesc]
  | cons y ys ih =>
      rw [insertDesc]
      by_cases h : x.statusDate < y.statusDate
      · rw [if_pos h]
        exact (ih.cons y).trans (List.Perm.swap x y ys)
      · rw [if_neg h]

theorem sortByStatusDateDesc_perm (l : List RP) : (sortByStatusDateDesc l).Perm l := by
  induction l with
  | nil => simp [sortByStatusDateDesc]
  | cons x xs ih => exact (insertDesc_perm x _).trans (ih.cons x)

theorem insertDesc_sorted (x : RP) {l : List RP} (hl : SortedByStatusDateDesc l) :
    SortedByStatusDateDesc (insertDesc x l) := by
  induction l with
  | nil => simp [insertDesc, SortedByStatusDateDesc]
  | cons y ys ih =>
      obtain ⟨hy, hys⟩ := List.pairwise_cons.mp hl
      rw [insertDesc]
      by_cases h : x.statusDate < y.statusDate
      · rw [if_pos h]
        refine List.Pairwise.cons ?_ (ih hys)
        intro z hz
        rcases List.mem_cons.mp ((insertDesc_perm x ys).mem_iff.mp hz) with rfl | hz2
        · exact le_of_lt h
        · exact hy z hz2
      · rw [if_neg h]
        refine List.Pairwise.cons ?_ hl
        intro z hz
        rcases List.mem_cons.mp hz with rfl | hz2
        · exact le_of_not_lt h
        · exact le_trans (hy z hz2) (le_of_not_lt h)

theorem sortByStatusDateDesc_sorted (l : List RP) :
    SortedByStatusDateDesc (sortByStatusDateDesc l) := by
  induction l with
  | nil => simp [sortByStatusDateDesc, SortedByStatusDateDesc]
  | cons x xs ih => exact insertDesc_sorted x ih

theorem insertDesc_eq_cons {x : RP} {l : List RP}
    (h : ∀ z ∈ l, z.statusDate ≤ x.statusDate) : insertDesc x l = x :: l := by
  cases l with
  | nil => rfl
  | cons y ys =>
      rw [insertDesc, if_neg (not_lt.mpr (h y (List.mem_cons_self _ _)))]

theorem sortByStatusDateDesc_eq_self {l : List RP} (hl : SortedByStatusDateDesc l) :
    sortByStatusDateDesc l = l := by
  induction l with
  | nil => rfl
  | cons x xs ih =>
      obtain ⟨hx, hxs⟩ := List.pairwise_cons.mp hl
      rw [sortByStatusDateDesc, ih hxs, insertDesc_eq_cons hx]

theorem filter_insertDesc (p : RP → Bool) (x : RP) {l : List RP}
    (hl : SortedByStatusDateDesc l) :
    (insertDesc x l).filter p =
      if p x then insertDesc x (l.filter p) else l.filter p := by
  induction l with
  | nil =>
      cases hpx : p x <;> simp [insertDesc, List.filter_cons, hpx]
  | cons y ys ih =>
      obtain ⟨hy, hys⟩ := List.pairwise_cons.mp hl
      rw [insertDesc]
      by_cases h : x.statusDate < y.statusDate
      · rw [if_pos h, List.filter_cons, ih hys, List.filter_cons]
        by_cases hpx : p x = true <;> by_cases hpy : p y = true
        · simp only [if_pos hpx, if_pos hpy]
          rw [insertDesc, if_pos h]
        · simp only [if_pos hpx, if_neg hpy]
        · simp only [if_neg hpx, if_pos hpy]
        · simp only [if_neg hpx, if_neg hpy]
      · rw [if_neg h, List.filter_cons]
        by_cases hpx : p x = true
        · simp only [if_pos hpx]
          have hall : ∀ z ∈ (y :: ys).filter p, z.statusDate ≤ x.statusDate := by
            intro z hz
            have hz2 := List.mem_of_mem_filter hz
            rcases List.mem_cons.mp hz2 with rfl | hz3
            · exact le_of_not_lt h
            · exact le_trans (hy z hz3) (le_of_not_lt h)
          rw [insertDesc_eq_cons hall]
        · simp only [if_neg hpx]

theorem filter_sortByStatusDateDesc (p : RP → Bool) (l : List RP) :
    (sortByStatusDateDesc l).filter p = sortByStatusDateDesc (l.filter p) := by
  induction l with
  | nil => rfl
  | cons x xs ih =>
      rw [sortByStatusDateDesc, filter_insertDesc p x (sortByStatusDateDesc_sorted xs),
        List.filter_cons]
      by_cases hpx : p x = true
      · simp only [if_pos hpx]
        rw [sortByStatusDateDesc, ih]
      · simp only [if_neg hpx]
        exact ih

theorem sorted_perm_filter_eq {l₁ l₂ : List RP} (hp : l₁.Perm l₂)
    (h₁ : SortedByStatusDateDesc l₁) (h₂ : SortedByStatusDateDesc l₂)
    (hf : ∀ t, l₁.filter (fun a => a.statusDate = t) =
      l₂.filter (fun a => a.statusDate = t)) : l₁ = l₂ := by
  induction l₁ generalizing l₂ with
  | nil => exact (hp.symm.eq_nil).symm
  | cons a l ih =>
      cases l₂ with
      | nil => exact absurd hp.eq_nil (by simp)
      | cons b m =>
          obtain ⟨ha, hl⟩ := List.pairwise_cons.mp h₁
          obtain ⟨hb, hm⟩ := List.pairwise_cons.mp h₂
          have hab : a.statusDate = b.statusDate := by
            have hbm : b ∈ a :: l := hp.mem_iff.mpr (List.mem_cons_self _ _)
            have ham : a ∈ b :: m := hp.mem_iff.mp (List.mem_cons_self _ _)
            have h1 : b.statusDate ≤ a.statusDate := by
              rcases List.mem_cons.mp hbm with heq | hbm2
              · rw [heq]
              · exact ha b hbm2
            have h2 : a.statusDate ≤ b.statusDate := by
              rcases List.mem_cons.mp ham with heq | ham2
              · rw [heq]
              · exact hb a ham2
            exact le_antisymm h2 h1
          have hft := hf a.statusDate
          have hc1 : (decide (a.statusDate = a.statusDate)) = true := by simp
          have hc2 : (decide (b.statusDate = a.statusDate)) = true := by simp [hab]
          rw [List.filter_cons, List.filter_cons, if_pos hc1, if_pos hc2] at hft
          injection hft with hab2 _
          subst hab2
          have hpl : l.Perm m := hp.cons_inv
          have hfl : ∀ t, l.filter (fun x => x.statusDate = t) =
              m.filter (fun x => x.statusDate = t) := by
            intro t
            have hft2 := hf t
            rw [List.filter_cons, List.filter_cons] at hft2
            by_cases hat : a.statusDate = t
            · have hc3 : (decide (a.statusDate = t)) = true := by simp [hat]
              rw [if_pos hc3, if_pos hc3] at hft2
              injection hft2
            · have hc3 : ¬ ((decide (a.statusDate = t)) = true) := by simp [hat]
              rw [if_neg hc3, if_neg hc3] at hft2
              exact hft2
          rw [ih hpl hl hm hfl]

/-! ## Lemmas about the file-system model and `effectAll` -/

theorem FS.lookup_cons (e : String × FileVal) (fs : FS) (q : String) :
    FS.lookup (e :: fs) q = if e.1 = q then some e.2 else fs.lookup q := by
  by_cases h : e.1 = q <;> simp [FS.lookup, List.find?_cons, h]

theorem FS.lookup_write (fs : FS) (p q : String) (v : FileVal) :
    (fs.write p v).lookup q = if p = q then some v else fs.lookup q := by
  rw [FS.write, FS.lookup_cons]

theorem FS.lookup_removeFile (fs : FS) (p q : String) :
    (fs.removeFile p).lookup q = if q = p then none else fs.lookup q := by
  induction fs with
  | nil => by_cases h : q = p <;> simp [FS.removeFile, FS.lookup, h]
  | cons e fs ih =>
      rw [FS.removeFile, List.filter_cons]
      by_cases he : e.1 = p
      · rw [if_neg (by simp [he])]
        rw [show List.filter (fun e => decide (e.1 ≠ p)) fs = FS.removeFile fs p from rfl,
          ih, FS.lookup_cons]
        by_cases hq : q = p
        · simp [hq]
        · have hne : ¬ e.1 = q := by
            rw [he]
            exact fun hh => hq hh.symm
          simp [hne, hq]
      · rw [if_pos (by simp [he])]
        rw [FS.lookup_cons, FS.lookup_cons]
        by_cases heq : e.1 = q
        · have hq : ¬ q = p := fun hh => he (by rw [heq, hh])
          simp [heq, hq]
        · rw [if_neg heq, if_neg heq,
            show List.filter (fun e => decide (e.1 ≠ p)) fs = FS.removeFile fs p from rfl, ih]

theorem lookup_foldl_removeFile (paths : List String) (fs : FS) (q : String) :
    (paths.foldl FS.removeFile fs).lookup q =
      if q ∈ paths then none else fs.lookup q := by
  induction paths generalizing fs with
  | nil => simp
  | cons p ps ih =>
      rw [List.foldl_cons, ih]
      by_cases hq : q ∈ ps
      · simp [hq, List.mem_cons]
      · rw [if_neg hq, FS.lookup_removeFile]
        by_cases hqp : q = p
        · simp [hqp, List.mem_cons]
        · have hnot : q ∉ p :: ps := by
            simp only [List.mem_cons]
            rintro (hh | hh)
            · exact hqp hh
            · exact hq hh
          simp [hqp, hnot]

theorem effectAll_ok_forall_mem {es : List (Except String α)} {rs : List α}
    (h : effectAll es = .ok rs) : ∀ e ∈ es, ∃ v ∈ rs, e = .ok v := by
  induction es generalizing rs with
  | nil => simp
  | cons e es ih =>
      intro x hx
      rw [effectAll] at h
      cases he : e with
      | error err => rw [he] at h; exact absurd h (by simp [Except.bind])
      | ok v =>
          rw [he] at h
          simp only [Except.bind] at h
          cases hrest : effectAll es with
          | error err => rw [hrest] at h; exact absurd h (by simp [Except.map])
          | ok vs =>
              rw [hrest] at h
              simp only [Except.map] at h
              have hrs : rs = v :: vs := by
                cases h
                rfl
              subst hrs
              rcases List.mem_cons.mp hx with rfl | hx2
              · exact ⟨v, List.mem_cons_self _ _, he⟩
              · obtain ⟨w, hw, hew⟩ := ih hrest x hx2
                exact ⟨w, List.mem_cons_of_mem _ hw, hew⟩

theorem effectAll_error_of_mem {es : List (Except String α)} {e : String}
    (hmem : Except.error e ∈ es) : ∃ e2, effectAll es = .error e2 := by
  induction es with
  | nil => simp at hmem
  | cons x xs ih =>
      rw [effectAll]
      cases hx : x with
      | error err => exact ⟨err, by simp [Except.bind]⟩
      | ok v =>
          rcases List.mem_cons.mp hmem with heq | hmem2
          · exact absurd (heq.trans hx) (by simp)
          · obtain ⟨e2, he2⟩ := ih hmem2
            refine ⟨e2, ?_⟩
            simp [Except.bind, he2, Except.map]

theorem effectAll_append_error {pre : List (Except String α)} {e : String}
    (hpre : ∀ x ∈ pre, ∃ v, x = .ok v) (post : List (Except String α)) :
    effectAll (pre ++ Except.error e :: post) = .error e := by
  induction pre with
  | nil => simp [effectAll, Except.bind]
  | cons x xs ih =>
      obtain ⟨v, hv⟩ := hpre x (List.mem_cons_self _ _)
      rw [List.cons_append, effectAll, hv]
      simp only [Except.bind]
      rw [ih (fun y hy => hpre y (List.mem_cons_of_mem _ hy))]
      simp [Except.map]

/-! ## Idempotence of the merge -/

theorem filter_key_sortByStatusDateDesc (t : Int) (l : List RP) :
    (sortByStatusDateDesc l).filter (fun a => a.statusDate = t) =
      l.filter (fun a => a.statusDate = t) := by
  rw [filter_sortByStatusDateDesc]
  apply sortByStatusDateDesc_eq_self
  apply List.pairwise_of_forall_mem_list
  intro a ha b hb
  have ha2 := List.of_mem_filter ha
  have hb2 := List.of_mem_filter hb
  have ha3 : a.statusDate = t := by simpa using ha2
  have hb3 : b.statusDate = t := by simpa using hb2
  rw [ha3, hb3]

theorem combineList_idem (C D : List RP) :
    reviewedPreprintsCombineList (reviewedPreprintsCombineList C D) D =
      reviewedPreprintsCombineList C D := by
  have hsymm : ∀ {a b : RP}, a.id ≠ b.id → b.id ≠ a.id := fun h => Ne.symm h
  have hsplit : dedupeById (D ++ C) =
      dedupeById D ++ dedupeByIdAux (seenAfter [] D) C := dedupeByIdAux_append [] D C
  have hres : reviewedPreprintsCombineList C D =
      sortByStatusDateDesc (dedupeById D ++ dedupeByIdAux (seenAfter [] D) C) := by
    rw [reviewedPreprintsCombineList, hsplit]
  have hpairDC : (dedupeById D ++ dedupeByIdAux (seenAfter [] D) C).Pairwise
      (fun a b => a.id ≠ b.id) := by
    rw [← hsplit]
    exact dedupeByIdAux_pairwise [] (D ++ C)
  have hpermR : (reviewedPreprintsCombineList C D).Perm
      (dedupeById D ++ dedupeByIdAux (seenAfter [] D) C) := by
    rw [hres]
    exact sortByStatusDateDesc_perm _
  have hpairR : (reviewedPreprintsCombineList C D).Pairwise (fun a b => a.id ≠ b.id) :=
    (hpermR.pairwise_iff hsymm).mpr hpairDC
  have h2 : dedupeById (D ++ reviewedPreprintsCombineList C D) =
      dedupeById D ++ dedupeByIdAux (seenAfter [] D) (reviewedPreprintsCombineList C D) :=
    dedupeByIdAux_append [] D _
  have h3 : dedupeByIdAux (seenAfter [] D) (reviewedPreprintsCombineList C D) =
      (reviewedPreprintsCombineList C D).filter (fun y => y.id ∉ seenAfter [] D) :=
    dedupeByIdAux_eq_filter hpairR
  have h5 : (dedupeById D).filter (fun y => y.id ∉ seenAfter [] D) = [] := by
    apply List.filter_eq_nil_iff.mpr
    intro a ha
    have ha2 : a ∈ D := (dedupeByIdAux_sublist [] D).subset ha
    have ha3 : a.id ∈ seenAfter ([] : List String) D :=
      mem_seenAfter.mpr (Or.inr (List.mem_map_of_mem RP.id ha2))
    simp [ha3]
  have h6 : (dedupeByIdAux (seenAfter [] D) C).filter
      (fun y => y.id ∉ seenAfter [] D) = dedupeByIdAux (seenAfter [] D) C := by
    apply List.filter_eq_self.mpr
    intro a ha
    have := mem_dedupeByIdAux_not_seen ha
    simp [this]
  have h4 : (reviewedPreprintsCombineList C D).filter (fun y => y.id ∉ seenAfter [] D) =
      sortByStatusDateDesc (dedupeByIdAux (seenAfter [] D) C) := by
    rw [hres, filter_sortByStatusDateDesc, List.filter_append, h5, h6, List.nil_append]
  -- hence the second merge sorts `dedupeById D ++ sortD C₁`
  have h7 : reviewedPreprintsCombineList (reviewedPreprintsCombineList C D) D =
      sortByStatusDateDesc
        (dedupeById D ++ sortByStatusDateDesc (dedupeByIdAux (seenAfter [] D) C)) := by
    rw [reviewedPreprintsCombineList, h2, h3, h4]
  rw [h7, hres]
  -- two stable sorts of id-equivalent inputs agree
  have hpermC₁ : (sortByStatusDateDesc (dedupeByIdAux (seenAfter [] D) C)).Perm
      (dedupeByIdAux (seenAfter [] D) C) := sortByStatusDateDesc_perm _
  have hperm : (sortByStatusDateDesc
      (dedupeById D ++ sortByStatusDateDesc (dedupeByIdAux (seenAfter [] D) C))).Perm
      (sortByStatusDateDesc (dedupeById D ++ dedupeByIdAux (seenAfter [] D) C)) := by
    refine (sortByStatusDateDesc_perm _).trans ?_
    refine ((hpermC₁.append_left (dedupeById D)).trans ?_)
    exact (sortByStatusDateDesc_perm _).symm
  apply sorted_perm_filter_eq hperm (sortByStatusDateDesc_sorted _)
    (sortByStatusDateDesc_sorted _)
  intro t
  rw [filter_key_sortByStatusDateDesc, filter_key_sortByStatusDateDesc,
    List.filter_append, List.filter_append, filter_key_sortByStatusDateDesc]

theorem sortByStatusDateDesc_optToList (o : Option RP) :
    sortByStatusDateDesc o.toList = o.toList := by
  cases o <;> rfl

/-! ## Claim theorems -/

/-- C1 counterexample: with canonical `C = [rpOldA]` and delta `D = [rpNewA]`
sharing the id `a`, the merged result keeps the delta version, not the
canonical one, because the concatenation order is delta-then-canonical. -/
theorem claim_C1_counterexample :
    reviewedPreprintsCombineList [rpOldA] [rpNewA] = [rpNewA] ∧
    reviewedPreprintsCombineList [rpOldA] [rpNewA] ≠ [rpOldA] := by
  constructor
  · decide
  · decide

/-- C1 (amended): the merge concatenates delta followed by canonical and
deduplicates by id keeping the first occurrence, so each id's surviving
record is the first occurrence in `D ++ C`: a shared id appears exactly once
taking the version from D (delta wins over canonical), and each id unique
to C or D appears exactly once. -/
theorem claim_C1_amended (C D : List RP) (i : String) :
    (reviewedPreprintsCombineList C D).filter (fun y => y.id = i) =
      ((D ++ C).find? (fun y => y.id = i)).toList ∧
    (i ∈ D.map RP.id →
      (reviewedPreprintsCombineList C D).filter (fun y => y.id = i) =
        (D.find? (fun y => y.id = i)).toList ∧
      ((reviewedPreprintsCombineList C D).filter (fun y => y.id = i)).length = 1) ∧
    (i ∉ D.map RP.id → i ∈ C.map RP.id →
      (reviewedPreprintsCombineList C D).filter (fun y => y.id = i) =
        (C.find? (fun y => y.id = i)).toList ∧
      ((reviewedPreprintsCombineList C D).filter (fun y => y.id = i)).length = 1) := by
  have hmain : (reviewedPreprintsCombineList C D).filter (fun y => y.id = i) =
      ((D ++ C).find? (fun y => y.id = i)).toList := by
    rw [reviewedPreprintsCombineList, filter_sortByStatusDateDesc, dedupeById,
      filter_id_dedupeByIdAux, if_neg (List.not_mem_nil i),
      sortByStatusDateDesc_optToList]
  refine ⟨hmain, ?_, ?_⟩
  · intro hiD
    obtain ⟨x, hxD, hxi⟩ := List.mem_map.mp hiD
    have hsome : (D.find? (fun y => y.id = i)).isSome :=
      List.find?_isSome.mpr ⟨x, hxD, by simp [hxi]⟩
    obtain ⟨v, hv⟩ := Option.isSome_iff_exists.mp hsome
    have happ : (D ++ C).find? (fun y => y.id = i) = some v := by
      rw [List.find?_append, hv]
      rfl
    constructor
    · rw [hmain, happ, hv]
    · rw [hmain, happ]
      rfl
  · intro hiD hiC
    have hnone : D.find? (fun y => y.id = i) = none := by
      apply List.find?_eq_none.mpr
      intro x hx hxi
      have hxi2 : x.id = i := of_decide_eq_true hxi
      exact hiD (List.mem_map.mpr ⟨x, hx, hxi2⟩)
    obtain ⟨x, hxC, hxi⟩ := List.mem_map.mp hiC
    have hsome : (C.find? (fun y => y.id = i)).isSome :=
      List.find?_isSome.mpr ⟨x, hxC, by simp [hxi]⟩
    obtain ⟨v, hv⟩ := Option.isSome_iff_exists.mp hsome
    have happ : (D ++ C).find? (fun y => y.id = i) = some v := by
      rw [List.find?_append, hnone, hv]
      rfl
    constructor
    · rw [hmain, happ, hv]
    · rw [hmain, happ]
      rfl

/-- Witness for C1 (amended) at canonical `[rpOldA]`, delta `[rpNewA]`,
id `a`. -/
theorem claim_C1_amended_witness :
    (reviewedPreprintsCombineList [rpOldA] [rpNewA]).filter (fun y => y.id = "a") =
      ([rpNewA].find? (fun y => y.id = "a")).toList ∧
    ((reviewedPreprintsCombineList [rpOldA] [rpNewA]).filter
      (fun y => y.id = "a")).length = 1 :=
  (claim_C1_amended [rpOldA] [rpNewA] "a").2.1 (by decide)

/-- C2: for `limit > 0` the page list is
`page = offset > 0 ? floor((offset + limit) / limit) : 1`, with `page + 1`
added exactly when `offset % limit > 0`; the fetched pages are concatenated
in page order and sliced at `[offset % limit, offset % limit + limit)`;
and the three spec examples hold. -/
theorem claim_C2_page_planner (limit offset : Nat) (h : 0 < limit) :
    (topUpPages limit offset =
      (if offset > 0 then (offset + limit) / limit else 1) ::
        (if offset % limit > 0 then
          [(if offset > 0 then (offset + limit) / limit else 1) + 1] else [])) ∧
    (∀ fetchPage rs,
      effectAll ((topUpPages limit offset).map fetchPage) = .ok rs →
      getReviewedPreprintsTopUp fetchPage limit offset =
        .ok ((rs.flatten.drop (offset % limit)).take limit)) ∧
    topUpPages 20 0 = [1] ∧ (0 : Nat) % 20 = 0 ∧
    topUpPages 20 25 = [2, 3] ∧ (25 : Nat) % 20 = 5 ∧
    topUpPages 20 20 = [2] ∧ (20 : Nat) % 20 = 0 := by
  have hpage : 0 < (if offset > 0 then (offset + limit) / limit else 1) := by
    by_cases ho : offset > 0
    · rw [if_pos ho]
      exact Nat.div_pos (Nat.le_add_left limit offset) h
    · rw [if_neg ho]
      exact Nat.one_pos
  refine ⟨?_, ?_, by decide, by decide, by decide, by decide, by decide, by decide⟩
  · simp only [topUpPages]
    rw [if_congr (and_iff_right hpage) rfl rfl]
  · intro fetchPage rs hrs
    show (effectAll ((topUpPages limit offset).map fetchPage)).map
        (fun ps => jsSlice ps.flatten (offset % limit) (offset % limit + limit)) = _
    rw [hrs]
    simp [Except.map, jsSlice, Nat.add_sub_cancel_left]

/-- Witness for C2 at `limit = 2`, `offset = 3` (pages `[2, 3]`, slice
`[1, 3)` of the four fetched items). -/
theorem claim_C2_page_planner_witness :
    (0 : Nat) < 2 ∧ getReviewedPreprintsTopUp fetchC2 2 3 = .ok [rpW2, rpW3] := by
  refine ⟨by decide, ?_⟩
  exact (claim_C2_page_planner 2 3 (by decide)).2.1 fetchC2
    [[rpW1, rpW2], [rpW3, rpW4]] rfl

/-- C3 counterexample: a canonical cache file whose text is valid JSON but
not a valid summary collection (for example the file text `0`) is malformed,
yet the read surfaces a schema-decode error instead of recovering to the
empty collection. -/
theorem claim_C3_counterexample :
    getCachedReviewedPreprints [(getCachedListFile, FileVal.badSchemaJson)]
      getCachedListFile = .error "schema decode failed" := rfl

/-- C3 (amended): a missing file or a file that fails `JSON.parse` is
recovered as the empty collection with no surfaced error, and a well-formed
file decodes to its collection; but content that parses as JSON and fails
the collection codec is surfaced as an error, because the schema decode
runs after the `catchAll`. -/
theorem claim_C3_amended (fs : FS) (file : String) :
    (fs.lookup file = none → getCachedReviewedPreprints fs file = .ok []) ∧
    (fs.lookup file = some .badJson → getCachedReviewedPreprints fs file = .ok []) ∧
    (∀ l, fs.lookup file = some (.rps l) → getCachedReviewedPreprints fs file = .ok l) ∧
    (fs.lookup file = some .badSchemaJson →
      getCachedReviewedPreprints fs file = .error "schema decode failed") := by
  refine ⟨?_, ?_, ?_, ?_⟩
  · intro h
    rw [getCachedReviewedPreprints, readFileString, h]
    rfl
  · intro h
    rw [getCachedReviewedPreprints, readFileString, h]
    rfl
  · intro l h
    rw [getCachedReviewedPreprints, readFileString, h]
    rfl
  · intro h
    rw [getCachedReviewedPreprints, readFileString, h]
    rfl

/-- Witness for C3 (amended): a missing canonical file and an
unparseable one both read as the empty collection. -/
theorem claim_C3_amended_witness :
    getCachedReviewedPreprints [] getCachedListFile = .ok [] ∧
    getCachedReviewedPreprints [(getCachedListFile, FileVal.badJson)]
      getCachedListFile = .ok [] :=
  ⟨(claim_C3_amended [] getCachedListFile).1 rfl,
   (claim_C3_amended [(getCachedListFile, FileVal.badJson)] getCachedListFile).2.1 rfl⟩

/-- C4 counterexample: two backfill runs whose sets of failed identifiers
differ (`a` and `b` fail in the first, `a` and `c` in the second) report
the identical error, the first failing fetch's error alone, so the error
does not report which identifiers were not completed. -/
theorem claim_C4_counterexample :
    (retrieveIndividualReviewedPreprints cexFetch [("a", "pa"), ("b", "pb")] []).1 =
      .error "boom" ∧
    (retrieveIndividualReviewedPreprints cexFetch [("a", "pa"), ("c", "pc")] []).1 =
      .error "boom" ∧
    cexFetch "b" = .error "boom-b" ∧
    cexFetch "c" = .error "boom-c" ∧
    ("b" : String) ≠ "c" :=
  ⟨rfl, rfl, rfl, rfl, by decide⟩

/-- C4 (amended): if any one detail fetch fails, the whole backfill fails
(success implies every fetch succeeded) and performs no writes; the
resulting error is exactly the first failing fetch's error, and does not
enumerate the identifiers that were not completed. -/
theorem claim_C4_amended (fetch : String → Except String RP)
    (items : List (String × String)) (fs : FS) :
    (∀ res fs2, retrieveIndividualReviewedPreprints fetch items fs = (.ok res, fs2) →
      ∀ it ∈ items, ∃ r, fetch it.1 = .ok r) ∧
    (∀ e, (retrieveIndividualReviewedPreprints fetch items fs).1 = .error e →
      (retrieveIndividualReviewedPreprints fetch items fs).2 = fs) ∧
    (∀ pre it post e, items = pre ++ it :: post →
      (∀ p ∈ pre, ∃ r, fetch p.1 = .ok r) → fetch it.1 = .error e →
      retrieveIndividualReviewedPreprints fetch items fs = (.error e, fs)) := by
  refine ⟨?_, ?_, ?_⟩
  · intro res fs2 hres it hit
    rw [retrieveIndividualReviewedPreprints] at hres
    cases hall : effectAll (items.map
        (fun it => (fetch it.1).map (fun r => (it.1, it.2, r)))) with
    | error e =>
        rw [hall] at hres
        simp at hres
    | ok results =>
        obtain ⟨v, _, hgv⟩ := effectAll_ok_forall_mem hall _
          (List.mem_map_of_mem _ hit)
        cases hf : fetch it.1 with
        | error e =>
            rw [hf] at hgv
            simp [Except.map] at hgv
        | ok r => exact ⟨r, rfl⟩
  · intro e he
    rw [retrieveIndividualReviewedPreprints] at he ⊢
    cases hall : effectAll (items.map
        (fun it => (fetch it.1).map (fun r => (it.1, it.2, r)))) with
    | error e2 => rfl
    | ok results =>
        rw [hall] at he
        simp at he
  · intro pre it post e hitems hpre hit
    rw [retrieveIndividualReviewedPreprints, hitems, List.map_append, List.map_cons]
    have hone : ((fetch it.1).map (fun r => (it.1, it.2, r))) = .error e := by
      rw [hit]
      rfl
    rw [hone]
    have hpre2 : ∀ x ∈ pre.map (fun itm => (fetch itm.1).map (fun r => (itm.1, itm.2, r))),
        ∃ v, x = .ok v := by
      intro x hx
      obtain ⟨p, hp, hpx⟩ := List.mem_map.mp hx
      obtain ⟨r, hr⟩ := hpre p hp
      refine ⟨(p.1, p.2, r), ?_⟩
      rw [← hpx, hr]
      rfl
    rw [effectAll_append_error hpre2]

/-- Witness for C4 (amended): a single failing fetch aborts the whole
backfill with that fetch's error and leaves the file system untouched. -/
theorem claim_C4_amended_witness :
    retrieveIndividualReviewedPreprints cexFetch [("a", "pa")] [] = (.error "boom", []) :=
  (claim_C4_amended cexFetch [("a", "pa")] []).2.2 [] ("a", "pa") [] "boom" rfl
    (fun p hp => absurd hp (List.not_mem_nil p)) rfl

/-- C5: merging the same delta into the same canonical state twice yields
the same canonical collection as merging it once, and the merged
collection has no duplicate ids. -/
theorem claim_C5_idempotent_merge (C D : List RP) :
    reviewedPreprintsCombineList (reviewedPreprintsCombineList C D) D =
      reviewedPreprintsCombineList C D ∧
    (reviewedPreprintsCombineList C D).Pairwise (fun a b => a.id ≠ b.id) := by
  constructor
  · exact combineList_idem C D
  · have hsymm : ∀ {a b : RP}, a.id ≠ b.id → b.id ≠ a.id := fun h => Ne.symm h
    exact ((sortByStatusDateDesc_perm (dedupeById (D ++ C))).pairwise_iff hsymm).mpr
      (dedupeByIdAux_pairwise [] (D ++ C))

/-- C6: after a successful merge, the written canonical collection is the
combined collection, every adjacent pair is sorted by `statusDate`
descending, and ties keep the (stable) order they had in the deduplicated
concatenation. -/
theorem claim_C6_sorted_after_merge (fs : FS) (C D : List RP)
    (hC : getCachedReviewedPreprints fs getCachedListFile = .ok C)
    (hD : getCachedReviewedPreprints fs getCachedListFileNew = .ok D) :
    reviewedPreprintsTopUpCombine fs =
      (.ok (reviewedPreprintsCombineList C D),
        fs.write getCachedListFile (.rps (reviewedPreprintsCombineList C D))) ∧
    List.Chain' (fun a b => b.statusDate ≤ a.statusDate)
      (reviewedPreprintsCombineList C D) ∧
    (∀ t, (reviewedPreprintsCombineList C D).filter (fun a => a.statusDate = t) =
      (dedupeById (D ++ C)).filter (fun a => a.statusDate = t)) := by
  refine ⟨?_, ?_, ?_⟩
  · rw [reviewedPreprintsTopUpCombine, hC, hD]
  · exact List.Pairwise.chain' (sortByStatusDateDesc_sorted (dedupeById (D ++ C)))
  · intro t
    exact filter_key_sortByStatusDateDesc t (dedupeById (D ++ C))

/-- Witness for C6 on a concrete file system holding one canonical and one
delta record. -/
theorem claim_C6_sorted_after_merge_witness :
    reviewedPreprintsTopUpCombine fsC6 =
      (.ok (reviewedPreprintsCombineList [rpOldA] [rpNewA]),
        fsC6.write getCachedListFile
          (.rps (reviewedPreprintsCombineList [rpOldA] [rpNewA]))) ∧
    List.Chain' (fun a b => b.statusDate ≤ a.statusDate)
      (reviewedPreprintsCombineList [rpOldA] [rpNewA]) :=
  ⟨(claim_C6_sorted_after_merge fsC6 [rpOldA] [rpNewA] rfl rfl).1,
   (claim_C6_sorted_after_merge fsC6 [rpOldA] [rpNewA] rfl rfl).2.1⟩

/-- C7: the delta file is written only after every planned page fetch
succeeds: on any failure the stage returns the error and leaves the file
system unchanged, and when a planned page's fetch fails (with the canonical
read succeeding) the stage aborts with no write at all. -/
theorem topUpWrite_read_error (fetchPage : Nat → Except String (List RP))
    (limit : Nat) (fs : FS) (e : String)
    (hc : getCachedReviewedPreprints fs getCachedListFile = .error e) :
    reviewedPreprintsTopUpWrite fetchPage limit fs = (.error e, fs) := by
  rw [reviewedPreprintsTopUpWrite, hc]

theorem topUpWrite_fetch_error (fetchPage : Nat → Except String (List RP))
    (limit : Nat) (fs : FS) (cached : List RP) (e : String)
    (hc : getCachedReviewedPreprints fs getCachedListFile = .ok cached)
    (ht : getReviewedPreprintsTopUp fetchPage limit cached.length = .error e) :
    reviewedPreprintsTopUpWrite fetchPage limit fs = (.error e, fs) := by
  rw [reviewedPreprintsTopUpWrite, hc]
  show (match getReviewedPreprintsTopUp fetchPage limit cached.length with
    | Except.error e => ((Except.error e : Except String (List RP)), fs)
    | Except.ok rps => (Except.ok rps, fs.write getCachedListFileNew (FileVal.rps rps))) = _
  rw [ht]

theorem topUpWrite_ok (fetchPage : Nat → Except String (List RP))
    (limit : Nat) (fs : FS) (cached rps : List RP)
    (hc : getCachedReviewedPreprints fs getCachedListFile = .ok cached)
    (ht : getReviewedPreprintsTopUp fetchPage limit cached.length = .ok rps) :
    reviewedPreprintsTopUpWrite fetchPage limit fs =
      (.ok rps, fs.write getCachedListFileNew (.rps rps)) := by
  rw [reviewedPreprintsTopUpWrite, hc]
  show (match getReviewedPreprintsTopUp fetchPage limit cached.length with
    | Except.error e => ((Except.error e : Except String (List RP)), fs)
    | Except.ok rps => (Except.ok rps, fs.write getCachedListFileNew (FileVal.rps rps))) = _
  rw [ht]

/-- C7: the delta file is written only after every planned page fetch
succeeds: on any failure the stage returns the error and leaves the file
system unchanged, and when a planned page's fetch fails (with the canonical
read succeeding) the stage aborts with no write at all. -/
theorem claim_C7_no_partial_delta_write (fetchPage : Nat → Except String (List RP))
    (limit : Nat) (fs : FS) :
    (∀ e, (reviewedPreprintsTopUpWrite fetchPage limit fs).1 = .error e →
      (reviewedPreprintsTopUpWrite fetchPage limit fs).2 = fs) ∧
    (∀ rps, (reviewedPreprintsTopUpWrite fetchPage limit fs).1 = .ok rps →
      (reviewedPreprintsTopUpWrite fetchPage limit fs).2 =
        fs.write getCachedListFileNew (.rps rps)) ∧
    (∀ cached, getCachedReviewedPreprints fs getCachedListFile = .ok cached →
      (∃ p ∈ topUpPages limit cached.length, ∃ e, fetchPage p = .error e) →
      ∃ e2, reviewedPreprintsTopUpWrite fetchPage limit fs = (.error e2, fs)) := by
  refine ⟨?_, ?_, ?_⟩
  · intro e he
    cases hc : getCachedReviewedPreprints fs getCachedListFile with
    | error e2 => rw [topUpWrite_read_error fetchPage limit fs e2 hc]
    | ok cached =>
        cases ht : getReviewedPreprintsTopUp fetchPage limit cached.length with
        | error e3 => rw [topUpWrite_fetch_error fetchPage limit fs cached e3 hc ht]
        | ok rps =>
            rw [topUpWrite_ok fetchPage limit fs cached rps hc ht] at he
            simp at he
  · intro rps hr
    cases hc : getCachedReviewedPreprints fs getCachedListFile with
    | error e2 =>
        rw [topUpWrite_read_error fetchPage limit fs e2 hc] at hr
        simp at hr
    | ok cached =>
        cases ht : getReviewedPreprintsTopUp fetchPage limit cached.length with
        | error e3 =>
            rw [topUpWrite_fetch_error fetchPage limit fs cached e3 hc ht] at hr
            simp at hr
        | ok rps2 =>
            rw [topUpWrite_ok fetchPage limit fs cached rps2 hc ht] at hr ⊢
            simp only [Except.ok.injEq] at hr
            rw [hr]
  · intro cached hc hfail
    obtain ⟨p, hp, e, hpe⟩ := hfail
    have hmem : Except.error e ∈ (topUpPages limit cached.length).map fetchPage :=
      List.mem_map.mpr ⟨p, hp, hpe⟩
    obtain ⟨e2, he2⟩ := effectAll_error_of_mem hmem
    have htop : getReviewedPreprintsTopUp fetchPage limit cached.length = .error e2 := by
      show (effectAll ((topUpPages limit cached.length).map fetchPage)).map
          (fun ps => jsSlice ps.flatten
            (cached.length % limit) (cached.length % limit + limit)) = _
      rw [he2]
      rfl
    exact ⟨e2, topUpWrite_fetch_error fetchPage limit fs cached e2 hc htop⟩

/-- Witness for C7: a failing page fetch leaves the file system unchanged,
and a succeeding one writes exactly the delta file. -/
theorem claim_C7_no_partial_delta_write_witness :
    (reviewedPreprintsTopUpWrite (fun _ => Except.error "net") 1 []).2 = [] ∧
    (reviewedPreprintsTopUpWrite (fun _ => Except.ok [rpW1]) 1 []).2 =
      FS.write [] getCachedListFileNew (.rps [rpW1]) :=
  ⟨(claim_C7_no_partial_delta_write (fun _ => Except.error "net") 1 []).1 "net" rfl,
   (claim_C7_no_partial_delta_write (fun _ => Except.ok [rpW1]) 1 []).2.1 [rpW1] rfl⟩

/-- C8: given a readable delta collection, the invalidator succeeds (missing
detail files included), afterwards no detail file exists for any id in the
delta, and every path that is not a delta detail path is untouched. -/
theorem claim_C8_invalidation (fs : FS) (D : List RP)
    (hD : getCachedReviewedPreprints fs getCachedListFileNew = .ok D) :
    (reviewedPreprintsTopUpInvalidate fs).1 = .ok () ∧
    (∀ rp ∈ D,
      ((reviewedPreprintsTopUpInvalidate fs).2).lookup (getCachedFile rp.id) = none) ∧
    (∀ q, (∀ rp ∈ D, q ≠ getCachedFile rp.id) →
      ((reviewedPreprintsTopUpInvalidate fs).2).lookup q = fs.lookup q) := by
  have hinv : reviewedPreprintsTopUpInvalidate fs =
      (.ok (), (D.map (fun rp => getCachedFile rp.id)).foldl FS.removeFile fs) := by
    rw [reviewedPreprintsTopUpInvalidate, hD]
  refine ⟨by rw [hinv], ?_, ?_⟩
  · intro rp hrp
    rw [hinv]
    show ((D.map (fun rp => getCachedFile rp.id)).foldl FS.removeFile fs).lookup
      (getCachedFile rp.id) = none
    rw [lookup_foldl_removeFile,
      if_pos (List.mem_map_of_mem (fun rp => getCachedFile rp.id) hrp)]
  · intro q hq
    rw [hinv]
    show ((D.map (fun rp => getCachedFile rp.id)).foldl FS.removeFile fs).lookup q =
      fs.lookup q
    rw [lookup_foldl_removeFile, if_neg]
    intro hmem
    obtain ⟨rp, hrp, hqe⟩ := List.mem_map.mp hmem
    exact hq rp hrp hqe.symm

/-- Witness for C8: invalidating a one-record delta succeeds and removes its
detail file. -/
theorem claim_C8_invalidation_witness :
    (reviewedPreprintsTopUpInvalidate fsC8).1 = .ok () ∧
    ((reviewedPreprintsTopUpInvalidate fsC8).2).lookup (getCachedFile rpNewA.id) = none :=
  ⟨(claim_C8_invalidation fsC8 [rpNewA] rfl).1,
   (claim_C8_invalidation fsC8 [rpNewA] rfl).2.1 rpNewA (List.mem_cons_self _ _)⟩

theorem lookup_foldl_write_isSome (rs : List (String × String × RP)) (fs : FS)
    (q : String) :
    ((rs.foldl (fun acc r => acc.write r.2.1 (.detail r.2.2)) fs).lookup q).isSome =
        true ↔
      (∃ r ∈ rs, r.2.1 = q) ∨ (fs.lookup q).isSome = true := by
  induction rs generalizing fs with
  | nil => simp
  | cons r rs ih =>
      rw [List.foldl_cons, ih, FS.lookup_write]
      by_cases hrq : r.2.1 = q
      · rw [if_pos hrq]
        constructor
        · intro _
          exact Or.inl ⟨r, List.mem_cons_self _ _, hrq⟩
        · intro _
          exact Or.inr (by simp)
      · rw [if_neg hrq]
        constructor
        · rintro (⟨r2, hr2, hq2⟩ | hh)
          · exact Or.inl ⟨r2, List.mem_cons_of_mem _ hr2, hq2⟩
          · exact Or.inr hh
        · rintro (⟨r2, hr2, hq2⟩ | hh)
          · rcases List.mem_cons.mp hr2 with rfl | hr3
            · exact absurd hq2 hrq
            · exact Or.inl ⟨r2, hr3, hq2⟩
          · exact Or.inr hh

theorem missing_list_eq (fs : FS) (L : List RP) :
    ((((L.map (fun rp => rp.id)).map
        (fun msid => (msid, getCachedFile msid, (fs.lookup (getCachedFile msid)).isSome))).filter
        (fun t => !t.2.2)).map (fun t => (t.1, t.2.1))) =
      (L.filter (fun rp => !((fs.lookup (getCachedFile rp.id)).isSome))).map
        (fun rp => (rp.id, getCachedFile rp.id)) := by
  induction L with
  | nil => rfl
  | cons rp L ih =>
      simp only [List.map_cons, List.filter_cons]
      cases hx : (fs.lookup (getCachedFile rp.id)).isSome
      · simpa [hx] using ih
      · simpa [hx] using ih

/-- C9: the missing-details pass selects exactly the canonical records whose
detail file is absent (skipping the ones that exist), and after a successful
backfill every id in the canonical collection has a detail file. -/
theorem claim_C9_backfill (fetch : String → Except String RP) (fs : FS) (L : List RP)
    (hL : getCachedReviewedPreprints fs getCachedListFile = .ok L) :
    missingIndividualReviewedPreprints fs =
      .ok ((L.filter (fun rp => !((fs.lookup (getCachedFile rp.id)).isSome))).map
        (fun rp => (rp.id, getCachedFile rp.id))) ∧
    (∀ res fs2, retrieveMissingIndividualReviewedPreprints fetch fs = (.ok res, fs2) →
      ∀ rp ∈ L, ((fs2.lookup (getCachedFile rp.id)).isSome = true)) := by
  have hmiss : missingIndividualReviewedPreprints fs =
      .ok ((L.filter (fun rp => !((fs.lookup (getCachedFile rp.id)).isSome))).map
        (fun rp => (rp.id, getCachedFile rp.id))) := by
    rw [missingIndividualReviewedPreprints, hL]
    show Except.ok _ = Except.ok _
    exact congrArg Except.ok (missing_list_eq fs L)
  refine ⟨hmiss, ?_⟩
  intro res fs2 hrun rp hrp
  rw [retrieveMissingIndividualReviewedPreprints, hmiss] at hrun
  have hrun2 : retrieveIndividualReviewedPreprints fetch
      ((L.filter (fun rp => !((fs.lookup (getCachedFile rp.id)).isSome))).map
        (fun rp => (rp.id, getCachedFile rp.id))) fs = (.ok res, fs2) := hrun
  rw [retrieveIndividualReviewedPreprints] at hrun2
  cases hall : effectAll (((L.filter
      (fun rp => !((fs.lookup (getCachedFile rp.id)).isSome))).map
        (fun rp => (rp.id, getCachedFile rp.id))).map
      (fun it => (fetch it.1).map (fun r => (it.1, it.2, r)))) with
  | error e =>
      rw [hall] at hrun2
      simp at hrun2
  | ok results =>
      rw [hall] at hrun2
      have hfs2 : fs2 = results.foldl
          (fun acc r => acc.write r.2.1 (.detail r.2.2)) fs := by
        have := congrArg Prod.snd hrun2
        exact this.symm
      by_cases hex : (fs.lookup (getCachedFile rp.id)).isSome = true
      · rw [hfs2]
        exact (lookup_foldl_write_isSome results fs _).mpr (Or.inr hex)
      · have hitem : (rp.id, getCachedFile rp.id) ∈
            (L.filter (fun rp => !((fs.lookup (getCachedFile rp.id)).isSome))).map
              (fun rp => (rp.id, getCachedFile rp.id)) := by
          refine List.mem_map.mpr ⟨rp, List.mem_filter.mpr ⟨hrp, ?_⟩, rfl⟩
          rw [Bool.not_eq_true] at hex
          simp [hex]
        obtain ⟨v, hv, hgv⟩ := effectAll_ok_forall_mem hall _
          (List.mem_map_of_mem _ hitem)
        cases hf : fetch rp.id with
        | error e =>
            rw [show ((rp.id, getCachedFile rp.id) : String × String).1 = rp.id
              from rfl, hf] at hgv
            simp [Except.map] at hgv
        | ok r =>
            rw [show ((rp.id, getCachedFile rp.id) : String × String).1 = rp.id
              from rfl, hf] at hgv
            have hv21 : v.2.1 = getCachedFile rp.id := by
              simp only [Except.map, Except.ok.injEq] at hgv
              rw [← hgv]
            rw [hfs2]
            exact (lookup_foldl_write_isSome results fs _).mpr (Or.inl ⟨v, hv, hv21⟩)

/-- Witness for C9: backfilling a one-record canonical cache with no detail
files creates the missing detail file. -/
theorem claim_C9_backfill_witness :
    (((FS.write fsC9 (getCachedFile "a") (FileVal.detail rpNewA)).lookup
      (getCachedFile rpNewA.id)).isSome = true) :=
  (claim_C9_backfill fetchC9 fsC9 [rpNewA] rfl).2
    [("a", getCachedFile "a", rpNewA)]
    (FS.write fsC9 (getCachedFile "a") (FileVal.detail rpNewA)) rfl
    rpNewA (List.mem_cons_self _ _)

/-- C10: the two near-duplicate implementations of the page-planning and
top-up fetch logic, `getReviewedPreprintsTopUp` in the queries module and
its copy in the CLI source file, are the same function: for every fetcher,
limit and offset they compute the same page list and extract the same slice
from the concatenated page results. -/
theorem claim_C10_cli_copy_equivalent (fetchPage : Nat → Except String (List RP))
    (limit offset : Nat) :
    Cli.getReviewedPreprintsTopUp fetchPage limit offset =
      getReviewedPreprintsTopUp fetchPage limit offset := rfl
